import Mathlib

/-!
# Verification of AsyncIO-Rust (`src/lib.rs`)

A shallow embedding of the core of `src/lib.rs`:

* `parse_partial` — the HTTP request-line / header-block parser
  (`fn parse_partial`, lines 405-443).  The `TcpStream` wrapped in a
  `BufReader` is modelled as the list of bytes the peer has sent before
  closing; end of list is end of stream (EOF).  Rust `String`s are modelled
  as their UTF-8 byte lists; `String::from_utf8`'s error case is the
  `utf8Error` outcome, and a `.unwrap()` on `None` is the `panicked`
  outcome (a Rust panic, not a returned error value).
* `accept_client` — `AsyncServer::accept_client` (lines 52-68), over the
  outcome of `listener.incoming().next()`; the `eprintln!` log is returned
  explicitly.
* `runnerNext` — `AsyncServerRunner::__next__` (lines 254-295) together
  with `_iter_sleep` / `_sleep` (lines 154-209).  The Python event-loop
  future is reduced to one bit (`fut.is_some()`); whether the pending
  sleep future's `__next__` raises (its sleep elapsed) is an input of each
  poll, as is the outcome of the underlying `accept`.
-/

/-- Bytes of the stream.  The source only ever compares bytes for equality
or order against constants, so `Nat` (always < 256 on real inputs) is a
faithful carrier. -/
abbrev Byte := Nat

/-- `b'\n'` -/
def LF : Byte := 10

/-- `b'\r'` -/
def CR : Byte := 13

/-- Byte list of an ASCII string literal (every literal used below is
7-bit ASCII, where Rust's UTF-8 encoding is the identity on code points). -/
def ascii (s : String) : List Byte := s.data.map (fun c => c.toNat)

/-- `BufReader::read_until(b'\n', &mut buff)` on a fresh `buff`: returns
the bytes read — everything up to and including the first `\n`, or the
whole rest of the stream if no `\n` arrives before EOF — together with the
bytes left in the stream.  The number of bytes read `n` equals the length
of the first component. -/
def readUntilLF : List Byte → List Byte × List Byte
  | [] => ([], [])
  | b :: rest =>
    if b = LF then ([b], rest)
    else ((readUntilLF rest).1.cons b, (readUntilLF rest).2)

/-- `let _ = buff.split_off(if n >= 2 {n-2} else {0});` — `Vec::split_off`
keeps `buff[0 .. at)` in place, so the buffer retains its first `n - 2`
bytes (`n = buff.len()` here), or becomes empty when `n < 2`. -/
def stripLine (buff : List Byte) : List Byte :=
  buff.take (if buff.length ≥ 2 then buff.length - 2 else 0)

/-- `buff.split_str(b" ")` (bstr): split on every occurrence of the single
byte `0x20`; consecutive separators yield empty fields, the empty string
yields one empty field. -/
def splitSpace : List Byte → List (List Byte)
  | [] => [[]]
  | b :: rest =>
    if b = 0x20 then [] :: splitSpace rest
    else
      match splitSpace rest with
      | t :: ts => (b :: t) :: ts
      | [] => [[b]]

/-- `buff.splitn_str(2, b": ")` (bstr): split at the first occurrence of
the two-byte separator `": "`.  `none` when the separator does not occur —
then the iterator yields only the whole slice and its second `.next()`
returns `None`. -/
def splitHeaderSep : List Byte → Option (List Byte × List Byte)
  | [] => none
  | [_] => none
  | b1 :: b2 :: rest =>
    if b1 = 0x3A ∧ b2 = 0x20 then some ([], rest)
    else
      match splitHeaderSep (b2 :: rest) with
      | some (pre, post) => some (b1 :: pre, post)
      | none => none

/-- ASCII whitespace byte.  bstr's `trim_start` removes leading Unicode
whitespace; its multi-byte (non-ASCII) whitespace cases are not modelled —
every input below is ASCII, where this is exact. -/
def isAsciiWs (b : Byte) : Bool :=
  b = 0x20 || b = 0x09 || b = 0x0A || b = 0x0B || b = 0x0C || b = 0x0D

/-- `slice.trim_start()` (bstr), restricted to ASCII whitespace. -/
def trimStart : List Byte → List Byte
  | [] => []
  | b :: rest => if isAsciiWs b then trimStart rest else b :: rest

/-- A UTF-8 continuation byte `10xxxxxx`. -/
def isCont (b : Byte) : Bool := 0x80 ≤ b && b ≤ 0xBF

/-- Validity of a byte list as UTF-8 — the acceptance condition of
`String::from_utf8` (shortest-form sequences, no surrogates, max U+10FFFF) —
as the standard byte DFA: `expect` is the number of continuation bytes
still owed, and `[lo, hi]` the allowed range of the next byte (only the
first continuation byte of a sequence has a restricted range). -/
def validUtf8Aux : Nat → Byte → Byte → List Byte → Bool
  | 0, _, _, [] => true
  | _+1, _, _, [] => false
  | 0, _, _, b :: rest =>
    if b ≤ 0x7F then validUtf8Aux 0 0x80 0xBF rest
    else if 0xC2 ≤ b && b ≤ 0xDF then validUtf8Aux 1 0x80 0xBF rest
    else if b = 0xE0 then validUtf8Aux 2 0xA0 0xBF rest
    else if (0xE1 ≤ b && b ≤ 0xEC) || b = 0xEE || b = 0xEF then validUtf8Aux 2 0x80 0xBF rest
    else if b = 0xED then validUtf8Aux 2 0x80 0x9F rest
    else if b = 0xF0 then validUtf8Aux 3 0x90 0xBF rest
    else if 0xF1 ≤ b && b ≤ 0xF3 then validUtf8Aux 3 0x80 0xBF rest
    else if b = 0xF4 then validUtf8Aux 3 0x80 0x8F rest
    else false
  | k+1, lo, hi, b :: rest =>
    if lo ≤ b && b ≤ hi then validUtf8Aux k 0x80 0xBF rest else false

/-- `String::from_utf8` succeeds exactly when this holds. -/
def validUtf8 (l : List Byte) : Bool := validUtf8Aux 0 0x80 0xBF l

/-- The UTF-8 encoding of U+FFFD REPLACEMENT CHARACTER. -/
def replacementChar : List Byte := [0xEF, 0xBF, 0xBD]

/-- `String::from_utf8_lossy` (total; the `.parse::<String>()` that follows
it in the source is the identity): valid sequences are copied, an invalid
sequence is replaced by U+FFFD and scanning resumes after its maximal
valid prefix. -/
def utf8Lossy : List Byte → List Byte
  | [] => []
  | b :: rest =>
    if b ≤ 0x7F then b :: utf8Lossy rest
    else if 0xC2 ≤ b && b ≤ 0xDF then
      match rest with
      | c1 :: r =>
        if isCont c1 then b :: c1 :: utf8Lossy r
        else replacementChar ++ utf8Lossy (c1 :: r)
      | [] => replacementChar
    else if b = 0xE0 then
      match rest with
      | c1 :: r =>
        if 0xA0 ≤ c1 && c1 ≤ 0xBF then
          match r with
          | c2 :: r2 =>
            if isCont c2 then b :: c1 :: c2 :: utf8Lossy r2
            else replacementChar ++ utf8Lossy (c2 :: r2)
          | [] => replacementChar
        else replacementChar ++ utf8Lossy (c1 :: r)
      | [] => replacementChar
    else if (0xE1 ≤ b && b ≤ 0xEC) || b = 0xEE || b = 0xEF then
      match rest with
      | c1 :: r =>
        if isCont c1 then
          match r with
          | c2 :: r2 =>
            if isCont c2 then b :: c1 :: c2 :: utf8Lossy r2
            else replacementChar ++ utf8Lossy (c2 :: r2)
          | [] => replacementChar
        else replacementChar ++ utf8Lossy (c1 :: r)
      | [] => replacementChar
    else if b = 0xED then
      match rest with
      | c1 :: r =>
        if 0x80 ≤ c1 && c1 ≤ 0x9F then
          match r with
          | c2 :: r2 =>
            if isCont c2 then b :: c1 :: c2 :: utf8Lossy r2
            else replacementChar ++ utf8Lossy (c2 :: r2)
          | [] => replacementChar
        else replacementChar ++ utf8Lossy (c1 :: r)
      | [] => replacementChar
    else if b = 0xF0 then
      match rest with
      | c1 :: r =>
        if 0x90 ≤ c1 && c1 ≤ 0xBF then
          match r with
          | c2 :: r2 =>
            if isCont c2 then
              match r2 with
              | c3 :: r3 =>
                if isCont c3 then b :: c1 :: c2 :: c3 :: utf8Lossy r3
                else replacementChar ++ utf8Lossy (c3 :: r3)
              | [] => replacementChar
            else replacementChar ++ utf8Lossy (c2 :: r2)
          | [] => replacementChar
        else replacementChar ++ utf8Lossy (c1 :: r)
      | [] => replacementChar
    else if 0xF1 ≤ b && b ≤ 0xF3 then
      match rest with
      | c1 :: r =>
        if isCont c1 then
          match r with
          | c2 :: r2 =>
            if isCont c2 then
              match r2 with
              | c3 :: r3 =>
                if isCont c3 then b :: c1 :: c2 :: c3 :: utf8Lossy r3
                else replacementChar ++ utf8Lossy (c3 :: r3)
              | [] => replacementChar
            else replacementChar ++ utf8Lossy (c2 :: r2)
          | [] => replacementChar
        else replacementChar ++ utf8Lossy (c1 :: r)
      | [] => replacementChar
    else if b = 0xF4 then
      match rest with
      | c1 :: r =>
        if 0x80 ≤ c1 && c1 ≤ 0x8F then
          match r with
          | c2 :: r2 =>
            if isCont c2 then
              match r2 with
              | c3 :: r3 =>
                if isCont c3 then b :: c1 :: c2 :: c3 :: utf8Lossy r3
                else replacementChar ++ utf8Lossy (c3 :: r3)
              | [] => replacementChar
            else replacementChar ++ utf8Lossy (c2 :: r2)
          | [] => replacementChar
        else replacementChar ++ utf8Lossy (c1 :: r)
      | [] => replacementChar
    else replacementChar ++ utf8Lossy rest

/-- `HashMap<String, String>` as an association list; only its mapping
matters to any statement below, never its order. -/
abbrev Headers := List (List Byte × List Byte)

/-- `HashMap::insert`: overwrites the value of an existing key, otherwise
adds the pair. -/
def hmInsert (m : Headers) (k v : List Byte) : Headers :=
  match m with
  | [] => [(k, v)]
  | (k', v') :: rest => if k = k' then (k, v) :: rest else (k', v') :: hmInsert rest k v

/-- Outcome of `fn parse_partial`.

* `ok` is `Ok((method, path, protocol, headers))`, plus the bytes of the
  stream left unconsumed by the `BufReader`;
* `utf8Error` is the `Err` that `String::from_utf8(..)?` propagates;
* `panicked` is a Rust panic: `.unwrap()` called on `None`.
-/
inductive ParseResult where
  | ok (method path protocol : List Byte) (headers : Headers) (rest : List Byte)
  | utf8Error
  | panicked
deriving DecidableEq

/-- `const MAX_HEADER_COUNT: usize = 32;` -/
def MAX_HEADER_COUNT : Nat := 32

/-- The `for i in 0..MAX_HEADER_COUNT` loop of `fn parse_partial`.
`fuel` is the number of iterations left (`MAX_HEADER_COUNT - i`); running
out of fuel is the loop ending normally, which falls through to
`Ok((method, path, protocol, headers))`.

Each iteration: `read_until(b'\n')`, drop the last two bytes read
(`split_off`), `break` on an empty buffer; on line `i != 0` split at the
first `": "` — both `iter.next().unwrap()` calls, the second of which
panics when the separator is absent — and `insert` the
`String::from_utf8(..)?` name with the `trim_start()`ed value; on line
`i == 0` take three whitespace-split tokens via `items.next().unwrap()`
(a panic when fewer than three exist) through `String::from_utf8_lossy`.
-/
def parseLoop : List Byte → Nat → Nat → List Byte → List Byte → List Byte → Headers → ParseResult
  | input, _, 0, m, p, pr, h => .ok m p pr h input
  | input, i, fuel+1, m, p, pr, h =>
    if stripLine (readUntilLF input).1 = [] then .ok m p pr h (readUntilLF input).2
    else if i ≠ 0 then
      match splitHeaderSep (stripLine (readUntilLF input).1) with
      | some nv =>
        if validUtf8 nv.1 then
          if validUtf8 (trimStart nv.2) then
            parseLoop (readUntilLF input).2 (i+1) fuel m p pr (hmInsert h nv.1 (trimStart nv.2))
          else .utf8Error
        else .utf8Error
      | none =>
        if validUtf8 (stripLine (readUntilLF input).1) then .panicked else .utf8Error
    else
      match splitSpace (stripLine (readUntilLF input).1) with
      | t1 :: t2 :: t3 :: _ =>
        parseLoop (readUntilLF input).2 (i+1) fuel (utf8Lossy t1) (utf8Lossy t2) (utf8Lossy t3) h
      | _ => .panicked

/-- `fn parse_partial(stream: &TcpStream)` over the bytes of the stream. -/
def parse_partial (input : List Byte) : ParseResult :=
  parseLoop input 0 MAX_HEADER_COUNT [] [] [] []

/-- Replace the unconsumed-bytes component of a successful parse; identity
on errors and panics.  Used to state that trailing bytes are left on the
stream untouched. -/
def withRest : ParseResult → List Byte → ParseResult
  | .ok m p pr h _, r => .ok m p pr h r
  | .utf8Error, _ => .utf8Error
  | .panicked, _ => .panicked

/-- `io::ErrorKind` as far as `accept_client` inspects it. -/
inductive IoErrorKind where
  | wouldBlock
  | other (code : Nat)
deriving DecidableEq

/-- `AsyncServer::accept_client`.  The argument is what
`self.listener.incoming().next()` produced: `none` for a `None` item,
otherwise the `accept` result, with a `TcpStream` as a numeric identifier.
The second component is the list of errors written by `eprintln!`. -/
def accept_client (ev : Option (Except IoErrorKind Nat)) : Option Nat × List IoErrorKind :=
  match ev with
  | some (.ok s) => (some s, [])
  | some (.error e) => if e = .wouldBlock then (none, []) else (none, [e])
  | none => (none, [])

/-- The mutable fields of `AsyncServerRunner` that `__next__` reads or
writes: `server_state: u8`, `server_exit: bool`, and whether `fut` is
`Some`. -/
structure RunnerState where
  server_state : Nat
  server_exit : Bool
  fut : Bool
deriving DecidableEq

/-- `IterNextOutput`: `yld v` is `Yield(v)` (more work, resume again),
`ret` is `Return(None)` (`StopIteration`: the coroutine is finished). -/
inductive PollRes where
  | yld (v : Option Unit)
  | ret
deriving DecidableEq

/-- `AsyncServerRunner::_iter_sleep`: create the sleep future when absent
(`_sleep`), then call its `__next__`.  `sleepRaises` says whether that call
raised (the sleep elapsed): then `server_state` goes back to 1 and the
future is dropped; otherwise the yielded object (`some ()`) is passed on. -/
def iter_sleep (s : RunnerState) (sleepRaises : Bool) : RunnerState × Option Unit :=
  let s1 := if s.fut = false then { s with fut := true } else s
  if sleepRaises then ({ s1 with server_state := 1, fut := false }, none)
  else (s1, some ())

/-- One poll of `AsyncServerRunner::__next__`: result, the connection a
task was spawned for (`ensure_future(OnceFuture::new(..))`), and the
successor state. -/
structure PollOut where
  res : PollRes
  spawned : Option Nat
  state : RunnerState
deriving DecidableEq

/-- `AsyncServerRunner::__next__` (lines 254-295).  `ev` feeds the inner
`accept_client` call; `sleepRaises` feeds `_iter_sleep`. -/
def runnerNext (s : RunnerState) (ev : Option (Except IoErrorKind Nat)) (sleepRaises : Bool) :
    PollOut :=
  let s0 := if s.server_state = 0 then { s with server_state := 1 } else s
  if s0.server_state = 1 then
    match (accept_client ev).1 with
    | some c => { res := .yld none, spawned := some c, state := s0 }
    | none =>
      if s0.server_exit then { res := .ret, spawned := none, state := s0 }
      else
        let s2 := { s0 with server_state := 2 }
        let sv := iter_sleep s2 sleepRaises
        { res := .yld sv.2, spawned := none, state := sv.1 }
  else if s0.server_state = 2 then
    let sv := iter_sleep s0 sleepRaises
    { res := .yld sv.2, spawned := none, state := sv.1 }
  else { res := .ret, spawned := none, state := s0 }

/-- A raw line chunk as `read_until` hands it to the loop body mid-block:
it ends at the first `\n` of the remaining stream, and, being a non-final
line of the header block, does not strip to the empty (terminator) line. -/
def properHeaderChunk (c : List Byte) : Prop :=
  c.dropLast ++ [LF] = c ∧ LF ∉ c.dropLast ∧ stripLine c ≠ []

instance properHeaderChunk.decide (c : List Byte) : Decidable (properHeaderChunk c) := by
  unfold properHeaderChunk
  infer_instance

/-- The concrete request line `GET / HTTP/1.1\r\n` used to drive the loop
past line 0 in the header-line statements. -/
def reqLineGET : List Byte := ascii "GET / HTTP/1.1\r\n"


/-! ## Basic lemmas about the line reader -/

theorem readUntilLF_append (a r : List Byte) (h : LF ∉ a) :
    readUntilLF (a ++ LF :: r) = (a ++ [LF], r) := by
  induction a with
  | nil => simp [readUntilLF]
  | cons b t ih =>
    have hb : b ≠ LF := fun hb => h (hb ▸ List.mem_cons_self b t)
    have ht : LF ∉ t := fun hm => h (List.mem_cons_of_mem b hm)
    simp [readUntilLF, hb, ih ht]

theorem readUntilLF_nil : readUntilLF [] = ([], []) := rfl

theorem stripLine_append2 (a : List Byte) (x y : Byte) : stripLine (a ++ [x, y]) = a := by
  have hlen : (a ++ [x, y]).length = a.length + 2 := by simp
  have hc : (a ++ [x, y]).length ≥ 2 := by omega
  simp only [stripLine, hlen, if_pos (by omega : a.length + 2 ≥ 2)]
  have : a.length + 2 - 2 = a.length + 0 := by omega
  rw [this, List.take_append, List.take_zero, List.append_nil]

theorem stripLine_snoc (a : List Byte) (x : Byte) : stripLine (a ++ [x]) = a.dropLast := by
  cases a with
  | nil => simp [stripLine]
  | cons b t =>
    have hlen : ((b :: t) ++ [x]).length = t.length + 2 := by simp
    simp only [stripLine, hlen, if_pos (by omega : t.length + 2 ≥ 2)]
    have h1 : t.length + 2 - 2 = t.length := by omega
    rw [h1]
    have h2 : (b :: t).dropLast = (b :: t).take ((b :: t).length - 1) := by
      rw [List.dropLast_eq_take]
    have h3 : (b :: t).length - 1 = t.length := by simp
    rw [h2, h3, List.take_append_of_le_length (by simp)]

theorem stripLine_nil : stripLine [] = [] := rfl

theorem parseLoop_nil (i fuel : Nat) (m p pr : List Byte) (h : Headers) :
    parseLoop [] i (fuel+1) m p pr h = .ok m p pr h [] := by
  simp [parseLoop, readUntilLF_nil, stripLine_nil]

/-! ## ASCII facts -/

theorem validUtf8Aux_ascii (l : List Byte) (h : ∀ b ∈ l, b ≤ 0x7F) :
    ∀ lo hi, validUtf8Aux 0 lo hi l = true := by
  induction l with
  | nil => intro lo hi; rfl
  | cons b t ih =>
    intro lo hi
    have hb : b ≤ 0x7F := h b (List.mem_cons_self b t)
    have ht : ∀ x ∈ t, x ≤ 0x7F := fun x hx => h x (List.mem_cons_of_mem b hx)
    simp only [validUtf8Aux]
    rw [if_pos hb]
    exact ih ht 0x80 0xBF

theorem validUtf8_ascii (l : List Byte) (h : ∀ b ∈ l, b ≤ 0x7F) : validUtf8 l = true :=
  validUtf8Aux_ascii l h 0x80 0xBF

theorem trimStart_mem (l : List Byte) (b : Byte) (h : b ∈ trimStart l) : b ∈ l := by
  induction l with
  | nil => exact absurd h (List.not_mem_nil b)
  | cons x t ih =>
    by_cases hx : isAsciiWs x
    · simp only [trimStart, hx, if_pos] at h
      exact List.mem_cons_of_mem x (ih h)
    · simpa [trimStart, hx] using h

/-! ## Characterizing the `": "` split -/

theorem splitHeaderSep_eq (l nm v : List Byte) (h : splitHeaderSep l = some (nm, v)) :
    l = nm ++ 0x3A :: 0x20 :: v := by
  induction l generalizing nm v with
  | nil => simp [splitHeaderSep] at h
  | cons b1 t ih =>
    cases t with
    | nil => simp [splitHeaderSep] at h
    | cons b2 rest =>
      by_cases hb : b1 = 0x3A ∧ b2 = 0x20
      · simp only [splitHeaderSep, if_pos hb, Option.some.injEq, Prod.mk.injEq] at h
        obtain ⟨h1, h2⟩ := h
        subst h1
        subst h2
        simp [hb.1, hb.2]
      · simp only [splitHeaderSep, if_neg hb] at h
        cases hs : splitHeaderSep (b2 :: rest) with
        | none => rw [hs] at h; simp at h
        | some pq =>
          obtain ⟨pre, post⟩ := pq
          rw [hs] at h
          simp only [Option.some.injEq, Prod.mk.injEq] at h
          obtain ⟨h1, h2⟩ := h
          subst h1
          subst h2
          have hrec := ih pre post hs
          rw [show b1 :: b2 :: rest = b1 :: (b2 :: rest) from rfl, hrec]
          simp

theorem splitHeaderSep_boundary (nm v : List Byte) (h : splitHeaderSep nm = none) :
    splitHeaderSep (nm ++ 0x3A :: 0x20 :: v) = some (nm, v) := by
  induction nm with
  | nil => simp [splitHeaderSep]
  | cons b1 t ih =>
    cases t with
    | nil => simp [splitHeaderSep]
    | cons b2 rest =>
      have hsplit : ¬(b1 = 0x3A ∧ b2 = 0x20) ∧ splitHeaderSep (b2 :: rest) = none := by
        by_cases hb : b1 = 0x3A ∧ b2 = 0x20
        · simp [splitHeaderSep, hb] at h
        · refine ⟨hb, ?_⟩
          simp only [splitHeaderSep, if_neg hb] at h
          cases hs : splitHeaderSep (b2 :: rest) with
          | none => rfl
          | some pq =>
            obtain ⟨pre, post⟩ := pq
            rw [hs] at h
            simp at h
      have hx : (b1 :: b2 :: rest) ++ 0x3A :: 0x20 :: v =
          b1 :: b2 :: (rest ++ 0x3A :: 0x20 :: v) := by simp
      rw [hx]
      simp only [splitHeaderSep, if_neg hsplit.1]
      have hy : b2 :: (rest ++ 0x3A :: 0x20 :: v) = (b2 :: rest) ++ 0x3A :: 0x20 :: v := by simp
      rw [hy, ih hsplit.2]

/-! ## Stepping the parse loop one line at a time -/

theorem parseLoop_step (b rest : List Byte) (hb : LF ∉ b) (i fuel : Nat)
    (m p pr : List Byte) (h : Headers) :
    parseLoop (b ++ LF :: rest) i (fuel+1) m p pr h =
      if stripLine (b ++ [LF]) = [] then .ok m p pr h rest
      else if i ≠ 0 then
        match splitHeaderSep (stripLine (b ++ [LF])) with
        | some nv =>
          if validUtf8 nv.1 then
            if validUtf8 (trimStart nv.2) then
              parseLoop rest (i+1) fuel m p pr (hmInsert h nv.1 (trimStart nv.2))
            else .utf8Error
          else .utf8Error
        | none => if validUtf8 (stripLine (b ++ [LF])) then .panicked else .utf8Error
      else
        match splitSpace (stripLine (b ++ [LF])) with
        | t1 :: t2 :: t3 :: _ =>
          parseLoop rest (i+1) fuel (utf8Lossy t1) (utf8Lossy t2) (utf8Lossy t3) h
        | _ => .panicked := by
  simp only [parseLoop, readUntilLF_append b rest hb]

theorem withRest_ok (m p pr : List Byte) (h : Headers) (r s : List Byte) :
    withRest (.ok m p pr h r) s = .ok m p pr h s := rfl

theorem withRest_utf8Error (s : List Byte) : withRest .utf8Error s = .utf8Error := rfl

theorem withRest_panicked (s : List Byte) : withRest .panicked s = .panicked := rfl

/-- Consuming a block of non-terminator lines followed by the empty line:
everything after the empty line is returned untouched as the unconsumed
rest and influences nothing else. -/
theorem parseLoop_chunks_blank (chunks : List (List Byte)) :
    ∀ fuel i m p pr h bb s, chunks.length < fuel → (∀ c ∈ chunks, properHeaderChunk c) →
      LF ∉ bb → stripLine (bb ++ [LF]) = [] →
      parseLoop (chunks.flatten ++ (bb ++ LF :: s)) i fuel m p pr h =
        withRest (parseLoop (chunks.flatten ++ (bb ++ [LF])) i fuel m p pr h) s := by
  induction chunks with
  | nil =>
    intro fuel i m p pr h bb s hlen hc hbb hblank
    cases fuel with
    | zero => omega
    | succ f =>
      simp only [List.flatten_nil, List.nil_append]
      rw [parseLoop_step bb s hbb i f m p pr h,
        parseLoop_step bb [] hbb i f m p pr h,
        if_pos hblank, if_pos hblank, withRest_ok]
  | cons c cs ih =>
    intro fuel i m p pr h bb s hlen hc hbb hblank
    cases fuel with
    | zero => omega
    | succ f =>
      obtain ⟨hsnoc, hnolf, hne⟩ := hc c (List.mem_cons_self c cs)
      have hcs : ∀ x ∈ cs, properHeaderChunk x := fun x hx => hc x (List.mem_cons_of_mem c hx)
      have hlen' : cs.length < f := by
        simp only [List.length_cons] at hlen
        omega
      have e1 : (c :: cs).flatten ++ (bb ++ LF :: s) =
          c.dropLast ++ LF :: (cs.flatten ++ (bb ++ LF :: s)) := by
        conv_lhs => rw [List.flatten_cons, ← hsnoc]
        simp
      have e2 : (c :: cs).flatten ++ (bb ++ [LF]) =
          c.dropLast ++ LF :: (cs.flatten ++ (bb ++ [LF])) := by
        conv_lhs => rw [List.flatten_cons, ← hsnoc]
        simp
      rw [e1, e2, parseLoop_step _ _ hnolf, parseLoop_step _ _ hnolf, hsnoc,
        if_neg hne, if_neg hne]
      by_cases hi : i ≠ 0
      · rw [if_pos hi, if_pos hi]
        cases hsp : splitHeaderSep (stripLine c) with
        | none =>
          cases hv : validUtf8 (stripLine c) <;> simp [withRest]
        | some nv =>
          obtain ⟨nm, v⟩ := nv
          simp only []
          cases hv1 : validUtf8 nm
          · simp [withRest]
          · cases hv2 : validUtf8 (trimStart v)
            · simp [withRest]
            · simp only [if_pos rfl]
              exact ih f (i+1) m p pr (hmInsert h nm (trimStart v)) bb s hlen' hcs hbb hblank
      · rw [if_neg hi, if_neg hi]
        cases hts : splitSpace (stripLine c) with
        | nil => simp [withRest]
        | cons t1 ts1 =>
          cases ts1 with
          | nil => simp [withRest]
          | cons t2 ts2 =>
            cases ts2 with
            | nil => simp [withRest]
            | cons t3 ts3 =>
              simp only []
              exact ih f (i+1) (utf8Lossy t1) (utf8Lossy t2) (utf8Lossy t3) h bb s hlen' hcs hbb hblank

/-- EOF at a line boundary behaves exactly like the terminating empty
line: `read_until` returns 0 bytes, the (empty) stripped buffer triggers
the same `break`. -/
theorem parseLoop_chunks_eof (chunks : List (List Byte)) :
    ∀ fuel i m p pr h, chunks.length < fuel → (∀ c ∈ chunks, properHeaderChunk c) →
      parseLoop chunks.flatten i fuel m p pr h =
        parseLoop (chunks.flatten ++ (CR :: [LF])) i fuel m p pr h := by
  induction chunks with
  | nil =>
    intro fuel i m p pr h hlen hc
    cases fuel with
    | zero => omega
    | succ f =>
      simp only [List.flatten_nil, List.nil_append]
      rw [parseLoop_nil, show (CR :: [LF] : List Byte) = [CR] ++ LF :: [] from rfl,
        parseLoop_step [CR] [] (by decide) i f m p pr h,
        if_pos (by decide : stripLine ([CR] ++ [LF]) = [])]
  | cons c cs ih =>
    intro fuel i m p pr h hlen hc
    cases fuel with
    | zero => omega
    | succ f =>
      obtain ⟨hsnoc, hnolf, hne⟩ := hc c (List.mem_cons_self c cs)
      have hcs : ∀ x ∈ cs, properHeaderChunk x := fun x hx => hc x (List.mem_cons_of_mem c hx)
      have hlen' : cs.length < f := by
        simp only [List.length_cons] at hlen
        omega
      have e1 : (c :: cs).flatten = c.dropLast ++ LF :: cs.flatten := by
        conv_lhs => rw [List.flatten_cons, ← hsnoc]
        simp
      have e2 : (c :: cs).flatten ++ (CR :: [LF]) =
          c.dropLast ++ LF :: (cs.flatten ++ (CR :: [LF])) := by
        conv_lhs => rw [List.flatten_cons, ← hsnoc]
        simp
      rw [e2, e1, parseLoop_step _ _ hnolf, parseLoop_step _ _ hnolf, hsnoc,
        if_neg hne, if_neg hne]
      by_cases hi : i ≠ 0
      · rw [if_pos hi, if_pos hi]
        cases hsp : splitHeaderSep (stripLine c) with
        | none => rfl
        | some nv =>
          obtain ⟨nm, v⟩ := nv
          simp only []
          cases hv1 : validUtf8 nm
          · rfl
          · cases hv2 : validUtf8 (trimStart v)
            · rfl
            · simp only [if_pos rfl]
              exact ih f (i+1) m p pr (hmInsert h nm (trimStart v)) hlen' hcs
      · rw [if_neg hi, if_neg hi]
        cases hts : splitSpace (stripLine c) with
        | nil => rfl
        | cons t1 ts1 =>
          cases ts1 with
          | nil => rfl
          | cons t2 ts2 =>
            cases ts2 with
            | nil => rfl
            | cons t3 ts3 =>
              simp only []
              exact ih f (i+1) (utf8Lossy t1) (utf8Lossy t2) (utf8Lossy t3) h hlen' hcs

/-- When the line budget is exactly exhausted by the given block of
non-terminator lines, everything past the block is returned untouched as
the unconsumed rest and influences nothing else: the loop ends by running
out of iterations, not by seeing a terminator. -/
theorem parseLoop_chunks_trunc (chunks : List (List Byte)) :
    ∀ fuel i m p pr h s, chunks.length = fuel → (∀ c ∈ chunks, properHeaderChunk c) →
      parseLoop (chunks.flatten ++ s) i fuel m p pr h =
        withRest (parseLoop chunks.flatten i fuel m p pr h) s := by
  induction chunks with
  | nil =>
    intro fuel i m p pr h s hlen hc
    cases fuel with
    | succ f => simp at hlen
    | zero =>
      simp only [List.flatten_nil, List.nil_append]
      rw [show ∀ x, parseLoop x i 0 m p pr h = .ok m p pr h x from fun x => rfl,
        show ∀ x, parseLoop x i 0 m p pr h = .ok m p pr h x from fun x => rfl,
        withRest_ok]
  | cons c cs ih =>
    intro fuel i m p pr h s hlen hc
    cases fuel with
    | zero => simp at hlen
    | succ f =>
      obtain ⟨hsnoc, hnolf, hne⟩ := hc c (List.mem_cons_self c cs)
      have hcs : ∀ x ∈ cs, properHeaderChunk x := fun x hx => hc x (List.mem_cons_of_mem c hx)
      have hlen' : cs.length = f := by
        simp only [List.length_cons] at hlen
        omega
      have e1 : (c :: cs).flatten ++ s = c.dropLast ++ LF :: (cs.flatten ++ s) := by
        conv_lhs => rw [List.flatten_cons, ← hsnoc]
        simp
      have e2 : (c :: cs).flatten = c.dropLast ++ LF :: cs.flatten := by
        conv_lhs => rw [List.flatten_cons, ← hsnoc]
        simp
      rw [e1, e2, parseLoop_step _ _ hnolf, parseLoop_step _ _ hnolf, hsnoc,
        if_neg hne, if_neg hne]
      by_cases hi : i ≠ 0
      · rw [if_pos hi, if_pos hi]
        cases hsp : splitHeaderSep (stripLine c) with
        | none =>
          cases hv : validUtf8 (stripLine c) <;> simp [withRest]
        | some nv =>
          obtain ⟨nm, v⟩ := nv
          simp only []
          cases hv1 : validUtf8 nm
          · simp [withRest]
          · cases hv2 : validUtf8 (trimStart v)
            · simp [withRest]
            · simp only [if_pos rfl]
              exact ih f (i+1) m p pr (hmInsert h nm (trimStart v)) s hlen' hcs
      · rw [if_neg hi, if_neg hi]
        cases hts : splitSpace (stripLine c) with
        | nil => simp [withRest]
        | cons t1 ts1 =>
          cases ts1 with
          | nil => simp [withRest]
          | cons t2 ts2 =>
            cases ts2 with
            | nil => simp [withRest]
            | cons t3 ts3 =>
              simp only []
              exact ih f (i+1) (utf8Lossy t1) (utf8Lossy t2) (utf8Lossy t3) h s hlen' hcs

theorem parse_partial_reqGET (rest : List Byte) :
    parse_partial (reqLineGET ++ rest) =
      parseLoop rest 1 31 (ascii "GET") (ascii "/") (ascii "HTTP/1.1") [] := by
  show parseLoop (reqLineGET ++ rest) 0 (31+1) [] [] [] [] = _
  have e : reqLineGET ++ rest = ascii "GET / HTTP/1.1\r" ++ LF :: rest := by
    rw [show reqLineGET = ascii "GET / HTTP/1.1\r" ++ [LF] from by decide]
    simp
  rw [e, parseLoop_step _ _ (by decide) 0 31 [] [] [] []]
  simp only [show stripLine (ascii "GET / HTTP/1.1\r" ++ [LF]) = ascii "GET / HTTP/1.1" from by
    decide]
  rw [if_neg (by decide : ¬(ascii "GET / HTTP/1.1" = ([] : List Byte))),
    if_neg (by decide : ¬((0:Nat) ≠ 0))]
  simp only [show splitSpace (ascii "GET / HTTP/1.1") =
    [ascii "GET", ascii "/", ascii "HTTP/1.1"] from by decide]
  simp only [show utf8Lossy (ascii "GET") = ascii "GET" from by decide,
    show utf8Lossy (ascii "/") = ascii "/" from by decide,
    show utf8Lossy (ascii "HTTP/1.1") = ascii "HTTP/1.1" from by decide]

theorem parseLoop_header_cons (l rest : List Byte) (i fuel : Nat)
    (m p pr : List Byte) (h : Headers) (hlf : LF ∉ l) (hne : l ≠ []) :
    parseLoop (l ++ CR :: LF :: rest) (i+1) (fuel+1) m p pr h =
      match splitHeaderSep l with
      | some nv =>
        if validUtf8 nv.1 then
          if validUtf8 (trimStart nv.2) then
            parseLoop rest (i+2) fuel m p pr (hmInsert h nv.1 (trimStart nv.2))
          else .utf8Error
        else .utf8Error
      | none => if validUtf8 l then .panicked else .utf8Error := by
  have e : l ++ CR :: LF :: rest = (l ++ [CR]) ++ LF :: rest := by simp
  have hb : LF ∉ l ++ [CR] := by
    intro hm
    rcases List.mem_append.mp hm with h1 | h2
    · exact hlf h1
    · simp [LF, CR] at h2
  rw [e, parseLoop_step _ _ hb (i+1) fuel m p pr h]
  have hs : stripLine ((l ++ [CR]) ++ [LF]) = l := by
    rw [List.append_assoc]
    exact stripLine_append2 l CR LF
  rw [hs, if_neg hne, if_pos (by omega : i + 1 ≠ 0)]

/-- Variable-fuel version of `parseLoop_header_cons`, convenient to chain. -/
theorem parseLoop_header_line (l rest : List Byte) (i fuel : Nat)
    (m p pr : List Byte) (h : Headers) (hlf : LF ∉ l) (hne : l ≠ [])
    (hi : i ≠ 0) (hf : fuel ≠ 0) :
    parseLoop (l ++ CR :: LF :: rest) i fuel m p pr h =
      match splitHeaderSep l with
      | some nv =>
        if validUtf8 nv.1 then
          if validUtf8 (trimStart nv.2) then
            parseLoop rest (i+1) (fuel-1) m p pr (hmInsert h nv.1 (trimStart nv.2))
          else .utf8Error
        else .utf8Error
      | none => if validUtf8 l then .panicked else .utf8Error := by
  cases fuel with
  | zero => exact absurd rfl hf
  | succ f =>
    cases i with
    | zero => exact absurd rfl hi
    | succ j =>
      rw [parseLoop_header_cons l rest j f m p pr h hlf hne]
      rfl

theorem parseLoop_blank (i fuel : Nat) (m p pr : List Byte) (h : Headers) (hf : fuel ≠ 0) :
    parseLoop (CR :: LF :: []) i fuel m p pr h = .ok m p pr h [] := by
  cases fuel with
  | zero => exact absurd rfl hf
  | succ f =>
    rw [show (CR :: LF :: [] : List Byte) = [CR] ++ LF :: [] from rfl,
      parseLoop_step [CR] [] (by decide) i f m p pr h,
      if_pos (by decide : stripLine ([CR] ++ [LF]) = [])]

/-- Claim C2 (amended): for every input whose first consumed line is
nonempty after stripping and splits on single ASCII spaces into fewer than
three tokens, `parse_partial` panics — the second or third
`items.next().unwrap()` is an `unwrap` on `None` — instead of returning an
error value or a parsed request. -/
theorem C2_short_reqline_panics (input : List Byte)
    (hne : stripLine (readUntilLF input).1 ≠ [])
    (hlen : (splitSpace (stripLine (readUntilLF input).1)).length < 3) :
    parse_partial input = .panicked := by
  have H : ∀ fuel, parseLoop input 0 (fuel+1) [] [] [] [] = .panicked := by
    intro fuel
    simp only [parseLoop]
    rw [if_neg hne, if_neg (by decide : ¬((0:Nat) ≠ 0))]
    rcases hts : splitSpace (stripLine (readUntilLF input).1) with _ | ⟨t1, _ | ⟨t2, _ | ⟨t3, ts⟩⟩⟩
    · rfl
    · rfl
    · rfl
    · rw [hts] at hlen
      simp only [List.length_cons] at hlen
      omega
  exact H 31

theorem hmInsert_overwrite (k v1 v2 : List Byte) (m : Headers) :
    hmInsert (hmInsert m k v1) k v2 = hmInsert m k v2 := by
  induction m with
  | nil => simp [hmInsert]
  | cons kv rest ih =>
    obtain ⟨k', v'⟩ := kv
    by_cases hk : k = k'
    · simp [hmInsert, hk]
    · simp [hmInsert, hk, ih]

/-! ## The claims -/

/-- Claim C1: on the well-formed input
`GET /foo HTTP/1.1\r\nHost: example.com\r\nX-Y: z\r\n\r\n` the parser
returns method `GET`, path `/foo`, protocol `HTTP/1.1`, and a header
mapping holding exactly `Host ↦ example.com` and `X-Y ↦ z`; the whole
input is consumed. -/
theorem C1_parser_round_trip :
    parse_partial (ascii "GET /foo HTTP/1.1\r\nHost: example.com\r\nX-Y: z\r\n\r\n") =
      .ok (ascii "GET") (ascii "/foo") (ascii "HTTP/1.1")
        [(ascii "Host", ascii "example.com"), (ascii "X-Y", ascii "z")] [] := by decide

/-- Claim C2, counterexample: on `GET /foo\r\n` — a first line of two
tokens — `parse_partial` panics (`unwrap` on `None`); it does not return
an error value, so the claim "returns a parse error (an error value, not
a crash)" is false on the code. -/
theorem C2_counterexample :
    parse_partial (ascii "GET /foo\r\n") = .panicked ∧
      ParseResult.panicked ≠ ParseResult.utf8Error := by decide

/-- Claim C2 witness: the amended theorem applied at `GET /foo\r\n`. -/
theorem C2_witness :
    (stripLine (readUntilLF (ascii "GET /foo\r\n")).1 ≠ [] ∧
     (splitSpace (stripLine (readUntilLF (ascii "GET /foo\r\n")).1)).length < 3) ∧
    parse_partial (ascii "GET /foo\r\n") = .panicked :=
  ⟨⟨by decide, by decide⟩, C2_short_reqline_panics (ascii "GET /foo\r\n") (by decide) (by decide)⟩

/-- Claim C3, counterexample: on
`GET / HTTP/1.1\r\nNoColon\r\n\r\n` — a header line with no `": "` —
`parse_partial` panics (the second `iter.next().unwrap()` gets `None`);
it does not return an error value, so the error-handling half of the
claim is false on the code. -/
theorem C3_counterexample :
    parse_partial (ascii "GET / HTTP/1.1\r\nNoColon\r\n\r\n") = .panicked ∧
      ParseResult.panicked ≠ ParseResult.utf8Error := by decide

/-- Claim C3 (amended): for an ASCII header line `l` after a well-formed
request line, when `l` has no `": "` the parser panics (`unwrap` on
`None`) rather than returning an error value; when `l` splits at its
first `": "` into `nm` and `v`, the parsed mapping holds `nm` with the
leading whitespace of `v` trimmed. -/
theorem C3_header_line_behavior (l : List Byte)
    (hlf : LF ∉ l) (hne : l ≠ []) (hascii : ∀ b ∈ l, b ≤ 0x7F) :
    (splitHeaderSep l = none →
      parse_partial (reqLineGET ++ (l ++ CR :: LF :: [])) = .panicked) ∧
    (∀ nm v, splitHeaderSep l = some (nm, v) →
      parse_partial (reqLineGET ++ (l ++ CR :: LF :: CR :: LF :: [])) =
        .ok (ascii "GET") (ascii "/") (ascii "HTTP/1.1") [(nm, trimStart v)] []) := by
  constructor
  · intro hsep
    rw [parse_partial_reqGET,
      parseLoop_header_line l [] 1 31 _ _ _ _ hlf hne (by decide) (by decide)]
    simp only [hsep]
    rw [validUtf8_ascii l hascii]
    simp
  · intro nm v hsep
    have hl := splitHeaderSep_eq l nm v hsep
    have hnm : validUtf8 nm = true := validUtf8_ascii nm (fun b hb => hascii b (by
      rw [hl]; simp [hb]))
    have hv : validUtf8 (trimStart v) = true := validUtf8_ascii (trimStart v) (fun b hb =>
      hascii b (by
        rw [hl]
        have := trimStart_mem v b hb
        simp [this]))
    rw [parse_partial_reqGET,
      parseLoop_header_line l (CR :: LF :: []) 1 31 _ _ _ _ hlf hne (by decide) (by decide)]
    simp only [hsep, hnm, hv]
    simp only [if_true]
    rw [parseLoop_blank (1+1) (31-1) _ _ _ _ (by decide)]
    rfl

/-- Claim C3 witness: the amended theorem applied at the separator-less
line `NoColon` and at the line `Host: a`. -/
theorem C3_witness :
    (LF ∉ ascii "NoColon" ∧ ascii "NoColon" ≠ [] ∧ ∀ b ∈ ascii "NoColon", b ≤ 0x7F) ∧
    parse_partial (reqLineGET ++ (ascii "NoColon" ++ CR :: LF :: [])) = .panicked ∧
    parse_partial (reqLineGET ++ (ascii "Host: a" ++ CR :: LF :: CR :: LF :: [])) =
      .ok (ascii "GET") (ascii "/") (ascii "HTTP/1.1") [(ascii "Host", trimStart (ascii "a"))] [] :=
  ⟨⟨by decide, by decide, by decide⟩,
   (C3_header_line_behavior (ascii "NoColon") (by decide) (by decide) (by decide)).1 (by decide),
   (C3_header_line_behavior (ascii "Host: a") (by decide) (by decide) (by decide)).2
     (ascii "Host") (ascii "a") (by decide)⟩

/-- Claim C4, counterexample: an input of 33 non-empty lines (request
line plus 32 identical header lines) with no terminating empty line is
accepted: the loop ends after 32 iterations and returns `Ok` with the
32nd header line left unconsumed — it is not rejected as malformed. -/
theorem C4_counterexample :
    parse_partial (ascii "GET / HTTP/1.1\r\n" ++ (List.replicate 32 (ascii "A: b\r\n")).flatten) =
      .ok (ascii "GET") (ascii "/") (ascii "HTTP/1.1") [(ascii "A", ascii "b")]
        (ascii "A: b\r\n") := by decide

/-- Claim C4 (amended): when the 32-iteration budget is exhausted by 32
non-terminator lines, the loop ends normally and returns whatever it
accumulated as a success; every byte past the 32nd line is left
unconsumed and influences nothing — the request is silently truncated,
never rejected. -/
theorem C4_truncated_not_rejected (chunks : List (List Byte)) (s : List Byte)
    (hlen : chunks.length = 32) (hc : ∀ c ∈ chunks, properHeaderChunk c) :
    parse_partial (chunks.flatten ++ s) = withRest ( parse_partial chunks.flatten) s :=
  parseLoop_chunks_trunc chunks 32 0 [] [] [] [] s hlen hc

/-- Claim C4 witness: the amended theorem applied to the request line
followed by 31 header lines, with a 33rd line as the trailing bytes. -/
theorem C4_witness :
    ((ascii "GET / HTTP/1.1\r\n" :: List.replicate 31 (ascii "A: b\r\n")).length = 32 ∧
     ∀ c ∈ ascii "GET / HTTP/1.1\r\n" :: List.replicate 31 (ascii "A: b\r\n"),
       properHeaderChunk c) ∧
    parse_partial ((ascii "GET / HTTP/1.1\r\n" :: List.replicate 31 (ascii "A: b\r\n")).flatten ++
        ascii "A: b\r\n") =
      withRest ( parse_partial
        (ascii "GET / HTTP/1.1\r\n" :: List.replicate 31 (ascii "A: b\r\n")).flatten)
        (ascii "A: b\r\n") :=
  ⟨⟨by decide, by decide⟩,
   C4_truncated_not_rejected (ascii "GET / HTTP/1.1\r\n" :: List.replicate 31 (ascii "A: b\r\n"))
     (ascii "A: b\r\n") (by decide) (by decide)⟩

/-- Claim C5, counterexample: on `GET /foo HTTP/1.1\n\r\n` — the request
line terminated by a bare LF — the parser returns protocol `HTTP/1.`,
i.e. the final content byte `1` was removed together with the LF, not
"only the LF". -/
theorem C5_counterexample :
    parse_partial (ascii "GET /foo HTTP/1.1\n\r\n") =
      .ok (ascii "GET") (ascii "/foo") (ascii "HTTP/1.") [] [] ∧
    ascii "HTTP/1." ≠ ascii "HTTP/1.1" := by decide

/-- Claim C5 (amended): each consumed line loses exactly its last two
bytes (`split_off(n-2)`), never just the terminator: a CRLF-ended line
keeps precisely its content, but a line ended by a bare LF also loses its
final content byte (`dropLast`); in both cases the stream position
advances exactly past the line's LF. -/
theorem C5_strips_two_bytes (a r : List Byte) (h : LF ∉ a) :
    stripLine (readUntilLF (a ++ CR :: LF :: r)).1 = a ∧
    (readUntilLF (a ++ CR :: LF :: r)).2 = r ∧
    stripLine (readUntilLF (a ++ LF :: r)).1 = a.dropLast ∧
    (readUntilLF (a ++ LF :: r)).2 = r := by
  have h1 : LF ∉ a ++ [CR] := by
    intro hm
    rcases List.mem_append.mp hm with h2 | h2
    · exact h h2
    · simp [LF, CR] at h2
  have e : a ++ CR :: LF :: r = (a ++ [CR]) ++ LF :: r := by simp
  rw [e, readUntilLF_append _ _ h1, readUntilLF_append _ _ h]
  refine ⟨?_, rfl, ?_, rfl⟩
  · rw [List.append_assoc]
    exact stripLine_append2 a CR LF
  · exact stripLine_snoc a LF

/-- Claim C5 witness: the amended theorem applied at content `ab`: the
CRLF line keeps `ab`, the bare-LF line is cut to `a`. -/
theorem C5_witness :
    (LF ∉ ascii "ab") ∧
    stripLine (readUntilLF (ascii "ab" ++ CR :: LF :: ascii "X")).1 = ascii "ab" ∧
    stripLine (readUntilLF (ascii "ab" ++ LF :: ascii "X")).1 = (ascii "ab").dropLast :=
  ⟨by decide,
   (C5_strips_two_bytes (ascii "ab") (ascii "X") (by decide)).1,
   (C5_strips_two_bytes (ascii "ab") (ascii "X") (by decide)).2.2.1⟩

/-- Claim C6: an empty line (zero-length after stripping) reached before
the 32-line ceiling stops consumption: the result is that of parsing just
the block up to the empty line, and every byte after the empty line is
returned unconsumed (`rest = s`), never read as a header. -/
theorem C6_empty_line_stops (chunks : List (List Byte)) (bb s : List Byte)
    (hlen : chunks.length < 32) (hc : ∀ c ∈ chunks, properHeaderChunk c)
    (hbb : LF ∉ bb) (hblank : stripLine (bb ++ [LF]) = []) :
    parse_partial (chunks.flatten ++ (bb ++ LF :: s)) =
      withRest ( parse_partial (chunks.flatten ++ (bb ++ [LF]))) s :=
  parseLoop_chunks_blank chunks 32 0 [] [] [] [] bb s hlen hc hbb hblank

/-- Claim C6 witness: after `GET / HTTP/1.1\r\nHost: a\r\n` and the empty
line `\r\n`, the trailing well-formed header bytes `X-Y: z\r\n\r\n` are
left unconsumed and uninserted. -/
theorem C6_witness :
    (([ascii "GET / HTTP/1.1\r\n", ascii "Host: a\r\n"] : List (List Byte)).length < 32 ∧
     (∀ c ∈ ([ascii "GET / HTTP/1.1\r\n", ascii "Host: a\r\n"] : List (List Byte)),
       properHeaderChunk c) ∧
     LF ∉ [CR] ∧ stripLine ([CR] ++ [LF]) = []) ∧
    parse_partial (([ascii "GET / HTTP/1.1\r\n", ascii "Host: a\r\n"] : List (List Byte)).flatten ++
        ([CR] ++ LF :: ascii "X-Y: z\r\n\r\n")) =
      withRest ( parse_partial
        (([ascii "GET / HTTP/1.1\r\n", ascii "Host: a\r\n"] : List (List Byte)).flatten ++
          ([CR] ++ [LF]))) (ascii "X-Y: z\r\n\r\n") :=
  ⟨⟨by decide, by decide, by decide, by decide⟩,
   C6_empty_line_stops [ascii "GET / HTTP/1.1\r\n", ascii "Host: a\r\n"] [CR]
     (ascii "X-Y: z\r\n\r\n") (by decide) (by decide) (by decide) (by decide)⟩

/-- Claim C7: `accept_client` returns the connection when one was
pending, returns nothing without logging on `WouldBlock`, and on every
other accept error logs it and still returns nothing — its type has no
failure outcome at all, so no accept error can terminate the accept
loop. -/
theorem C7_accept_never_fails :
    (∀ s, accept_client (some (.ok s)) = (some s, [])) ∧
    accept_client (some (.error .wouldBlock)) = (none, []) ∧
    (∀ c, accept_client (some (.error (.other c))) = (none, [.other c])) ∧
    accept_client none = (none, []) ∧
    (∀ ev, (accept_client ev).1 = none ∨ ∃ s, ev = some (.ok s) ∧ (accept_client ev).1 = some s) := by
  refine ⟨fun s => rfl, rfl, fun c => rfl, rfl, ?_⟩
  intro ev
  match ev with
  | none => left; rfl
  | some (.ok s) => right; exact ⟨s, rfl, rfl⟩
  | some (.error .wouldBlock) => left; rfl
  | some (.error (.other c)) => left; rfl

/-- Claim C8, counterexample: from the state `server_state = 1`,
`server_exit = true` a poll with nothing pending reports finished
(`Return`), yet the state is unchanged, and the very next poll with a
pending connection accepts it, spawns a task for it and yields — the loop
does accept and spawn after having reported finished. -/
theorem C8_counterexample :
    (runnerNext ⟨1, true, false⟩ none false).res = .ret ∧
    (runnerNext ((runnerNext ⟨1, true, false⟩ none false).state) (some (.ok 7)) false).spawned =
      some 7 ∧
    (runnerNext ((runnerNext ⟨1, true, false⟩ none false).state) (some (.ok 7)) false).res =
      .yld none := by decide

/-- Claim C8 (amended): reporting finished leaves the runner's state
untouched (there is no terminal state): from `server_state = 1` with the
exit flag set, every poll with nothing pending reports finished again and
spawns nothing, but any poll with a pending connection accepts it, spawns
a task and yields instead of reporting finished. -/
theorem C8_no_terminal_state (s : RunnerState) (hs : s.server_state = 1)
    (he : s.server_exit = true) :
    (∀ sr, runnerNext s none sr = { res := .ret, spawned := none, state := s }) ∧
    (∀ c sr, runnerNext s (some (.ok c)) sr =
      { res := .yld none, spawned := some c, state := s }) := by
  obtain ⟨st, ex, fu⟩ := s
  simp only at hs he
  subst hs
  subst he
  constructor
  · intro sr
    simp [runnerNext, accept_client]
  · intro c sr
    simp [runnerNext, accept_client]

/-- Claim C8 witness: the amended theorem applied at the concrete
post-finish state. -/
theorem C8_witness :
    ((⟨1, true, false⟩ : RunnerState).server_state = 1 ∧
     (⟨1, true, false⟩ : RunnerState).server_exit = true) ∧
    runnerNext ⟨1, true, false⟩ none false =
      { res := .ret, spawned := none, state := ⟨1, true, false⟩ } ∧
    runnerNext ⟨1, true, false⟩ (some (.ok 5)) true =
      { res := .yld none, spawned := some 5, state := ⟨1, true, false⟩ } :=
  ⟨⟨rfl, rfl⟩,
   (C8_no_terminal_state ⟨1, true, false⟩ rfl rfl).1 false,
   (C8_no_terminal_state ⟨1, true, false⟩ rfl rfl).2 5 true⟩

/-- Claim C9, counterexample: the input `GET / HTTP/1.1\r\nHost: a\r\n`
ends (EOF) before any terminating empty line, yet the parser returns a
populated request as success — it does not refuse partially delivered
requests. -/
theorem C9_counterexample :
    parse_partial (ascii "GET / HTTP/1.1\r\nHost: a\r\n") =
      .ok (ascii "GET") (ascii "/") (ascii "HTTP/1.1") [(ascii "Host", ascii "a")] [] := by decide

/-- Claim C9 (amended): EOF at a line boundary is indistinguishable from
the terminating empty line (`read_until` returns 0 bytes, the empty
buffer triggers the same `break`), so a stream that ends before the
terminator parses exactly as if the terminator were present — including
returning partially populated requests as success. -/
theorem C9_eof_acts_as_terminator (chunks : List (List Byte))
    (hlen : chunks.length < 32) (hc : ∀ c ∈ chunks, properHeaderChunk c) :
    parse_partial chunks.flatten = parse_partial (chunks.flatten ++ (CR :: [LF])) :=
  parseLoop_chunks_eof chunks 32 0 [] [] [] [] hlen hc

/-- Claim C9 witness: the amended theorem applied to the terminator-less
`GET / HTTP/1.1\r\nHost: a\r\n`. -/
theorem C9_witness :
    (([ascii "GET / HTTP/1.1\r\n", ascii "Host: a\r\n"] : List (List Byte)).length < 32 ∧
     ∀ c ∈ ([ascii "GET / HTTP/1.1\r\n", ascii "Host: a\r\n"] : List (List Byte)),
       properHeaderChunk c) ∧
    parse_partial (([ascii "GET / HTTP/1.1\r\n", ascii "Host: a\r\n"] : List (List Byte)).flatten) =
      parse_partial (([ascii "GET / HTTP/1.1\r\n", ascii "Host: a\r\n"] :
        List (List Byte)).flatten ++ (CR :: [LF])) :=
  ⟨⟨by decide, by decide⟩,
   C9_eof_acts_as_terminator [ascii "GET / HTTP/1.1\r\n", ascii "Host: a\r\n"]
     (by decide) (by decide)⟩

/-- Claim C10: when the same (ASCII, separator-free) header name occurs on
two header lines, `HashMap::insert` overwrites, so only the value of the
last occurrence — leading whitespace trimmed — is in the returned
mapping. -/
theorem C10_last_occurrence_wins (nm v1 v2 : List Byte)
    (hsep : splitHeaderSep nm = none) (hnlf : LF ∉ nm) (hne : nm ≠ [])
    (hna : ∀ b ∈ nm, b ≤ 0x7F)
    (hv1lf : LF ∉ v1) (hv1a : ∀ b ∈ v1, b ≤ 0x7F)
    (hv2lf : LF ∉ v2) (hv2a : ∀ b ∈ v2, b ≤ 0x7F) :
    parse_partial (reqLineGET ++
      ((nm ++ 0x3A :: 0x20 :: v1) ++ CR :: LF ::
       ((nm ++ 0x3A :: 0x20 :: v2) ++ CR :: LF :: CR :: LF :: []))) =
      .ok (ascii "GET") (ascii "/") (ascii "HTTP/1.1") [(nm, trimStart v2)] [] := by
  have hl1 : LF ∉ nm ++ 0x3A :: 0x20 :: v1 := by
    intro hm
    rcases List.mem_append.mp hm with h2 | h2
    · exact hnlf h2
    · simp only [List.mem_cons] at h2
      rcases h2 with h3 | h3 | h3
      · exact absurd h3 (by decide)
      · exact absurd h3 (by decide)
      · exact hv1lf h3
  have hl2 : LF ∉ nm ++ 0x3A :: 0x20 :: v2 := by
    intro hm
    rcases List.mem_append.mp hm with h2 | h2
    · exact hnlf h2
    · simp only [List.mem_cons] at h2
      rcases h2 with h3 | h3 | h3
      · exact absurd h3 (by decide)
      · exact absurd h3 (by decide)
      · exact hv2lf h3
  have hne1 : nm ++ 0x3A :: 0x20 :: v1 ≠ [] := by simp
  have hne2 : nm ++ 0x3A :: 0x20 :: v2 ≠ [] := by simp
  have hvn : validUtf8 nm = true := validUtf8_ascii nm hna
  have hv1 : validUtf8 (trimStart v1) = true :=
    validUtf8_ascii (trimStart v1) (fun b hb => hv1a b (trimStart_mem v1 b hb))
  have hv2 : validUtf8 (trimStart v2) = true :=
    validUtf8_ascii (trimStart v2) (fun b hb => hv2a b (trimStart_mem v2 b hb))
  rw [parse_partial_reqGET,
    parseLoop_header_line (nm ++ 0x3A :: 0x20 :: v1) _ 1 31 _ _ _ _ hl1 hne1
      (by decide) (by decide)]
  simp only [splitHeaderSep_boundary nm v1 hsep, hvn, hv1, if_true]
  rw [parseLoop_header_line (nm ++ 0x3A :: 0x20 :: v2) _ (1+1) (31-1) _ _ _ _ hl2 hne2
    (by decide) (by decide)]
  simp only [splitHeaderSep_boundary nm v2 hsep, hvn, hv2, if_true]
  rw [parseLoop_blank (1+1+1) (31-1-1) _ _ _ _ (by decide), hmInsert_overwrite]
  rfl

/-- Claim C10 witness: the theorem applied at name `A`, first value `1`,
second value `2`. -/
theorem C10_witness :
    (splitHeaderSep (ascii "A") = none ∧ LF ∉ ascii "A" ∧ ascii "A" ≠ [] ∧
     LF ∉ ascii "1" ∧ LF ∉ ascii "2") ∧
    parse_partial (reqLineGET ++
      ((ascii "A" ++ 0x3A :: 0x20 :: ascii "1") ++ CR :: LF ::
       ((ascii "A" ++ 0x3A :: 0x20 :: ascii "2") ++ CR :: LF :: CR :: LF :: []))) =
      .ok (ascii "GET") (ascii "/") (ascii "HTTP/1.1") [(ascii "A", trimStart (ascii "2"))] [] :=
  ⟨⟨by decide, by decide, by decide, by decide, by decide⟩,
   C10_last_occurrence_wins (ascii "A") (ascii "1") (ascii "2") (by decide) (by decide)
     (by decide) (by decide) (by decide) (by decide) (by decide) (by decide)⟩
